import Mathlib

/-!
Verification development for the parallel k-means clustering code
(src/kmeans/omp_kmeans.c) and the two dense matrix-multiplication kernels
(src/matrix_mul/omp/matrix_mul.cpp, src/matrix_mul/omp/optimization/matrix_mul4.cc).

The C code is shallowly embedded over exact rational arithmetic (`ℚ` in place
of `float`/`double`, `ℤ` in place of `int`).  Arrays are modelled as total
functions from indices; every read the C code performs is at an index where the
modelled function agrees with the C array's content.  The OpenMP parallel
regions of the k-means code are data-race free on the arrays we model at the
per-point granularity (each loop iteration writes membership[i] and the
executing thread's private accumulator row), so the parallel for loop is
embedded as a sequential fold over the point indices, parameterised by the
map `tid` from loop iteration to executing thread.
-/

namespace KMeans

/-- Inputs of `omp_kmeans` (src/kmeans/omp_kmeans.c, lines 72-78) together with
the OpenMP environment: `nthreads` is `omp_get_max_threads()` and `tid i` is
the thread that executes iteration `i` of the parallel for loop. -/
structure KParams where
  numCoords : ℕ
  numObjs : ℕ
  numClusters : ℕ
  threshold : ℚ
  nthreads : ℕ
  tid : ℕ → ℕ

/-- The arrays of `omp_kmeans`, as total functions.
`objects` is `objects[i][j]`, `clusters` is `clusters[c][j]`,
`membership` is `membership[i]`, `localSize` is `local_newClusterSize[t][c]`,
`localSums` is `local_newClusters[t][c][j]`, `newSize` is `newClusterSize[c]`,
`newSums` is `newClusters[c][j]`, and `delta` is the running `delta`. -/
structure KState where
  objects : ℕ → ℕ → ℚ
  clusters : ℕ → ℕ → ℚ
  membership : ℕ → ℤ
  localSize : ℕ → ℕ → ℤ
  localSums : ℕ → ℕ → ℕ → ℚ
  newSize : ℕ → ℤ
  newSums : ℕ → ℕ → ℚ
  delta : ℤ

/-- `euclid_dist_2` (lines 30-42): the accumulation
`ans += (coord1[i]-coord2[i]) * (coord1[i]-coord2[i])` over `i < numdims`. -/
def euclid_dist_2 (numdims : ℕ) (coord1 coord2 : ℕ → ℚ) : ℚ :=
  ((List.range numdims).map (fun i => (coord1 i - coord2 i) * (coord1 i - coord2 i))).sum

/-- `find_nearest_cluster` (lines 44-67): starts with `index = 0` and the
distance to center 0, then for `i = 1 .. numClusters-1` replaces the pair when
a strictly smaller distance is found (so ties keep the lowest index). -/
def find_nearest_cluster (numClusters numCoords : ℕ) (object : ℕ → ℚ)
    (clusters : ℕ → ℕ → ℚ) : ℕ :=
  ((List.range' 1 (numClusters - 1) 1).foldl
    (fun st i =>
      let dist := euclid_dist_2 numCoords object (clusters i)
      if dist < st.2 then (i, dist) else st)
    (0, euclid_dist_2 numCoords object (clusters 0))).1

/-- The nearest-cluster search inlined in the parallel loop (lines 166-179).
The loop variable over centers is `j`, but line 177 stores the POINT index:
`index = i`.  So the final `index` is `0` when no center `j ≥ 1` ever beats the
running minimum, and the point's own index `i` otherwise. -/
def inlined_nearest (numClusters numCoords : ℕ) (i : ℕ) (object : ℕ → ℚ)
    (clusters : ℕ → ℕ → ℚ) : ℕ :=
  ((List.range' 1 (numClusters - 1) 1).foldl
    (fun st j =>
      let dist := euclid_dist_2 numCoords object (clusters j)
      if dist < st.2 then (i, dist) else st)
    (0, euclid_dist_2 numCoords object (clusters 0))).1

/-- The index the body of the parallel loop computes for point `x` in state
`st` (abbreviation used throughout the lemmas). -/
def pointIndex (P : KParams) (st : KState) (x : ℕ) : ℕ :=
  inlined_nearest P.numClusters P.numCoords x (st.objects x) st.clusters

/-- One iteration `i` of the parallel for loop body (lines 165-187):
compute `index`, add `(membership[i] ^ index) == 0` to `delta` (line 181 - this
adds 1 exactly when the old membership EQUALS the new index), store the index
in `membership[i]`, and accumulate into the executing thread's private
`local_newClusterSize[tid][index]` and `local_newClusters[tid][index][j]`. -/
def assignPoint (P : KParams) (st : KState) (i : ℕ) : KState :=
  let index := pointIndex P st i
  { st with
    delta := st.delta + (if st.membership i = (index : ℤ) then 1 else 0)
    membership := fun x => if x = i then (index : ℤ) else st.membership x
    localSize := fun t c =>
      if t = P.tid i ∧ c = index then st.localSize t c + 1 else st.localSize t c
    localSums := fun t c j =>
      if t = P.tid i ∧ c = index ∧ j < P.numCoords then st.localSums t c j + st.objects i j
      else st.localSums t c j }

/-- The parallel assignment phase (lines 156-189): the loop body over all
points `i = 0 .. numObjs-1`. -/
def assignPhase (P : KParams) (st : KState) : KState :=
  (List.range P.numObjs).foldl (assignPoint P) st

/-- The serial array reduction (lines 192-201).  For each cluster `i <
numClusters` and thread `j < nthreads` the loop adds the thread's private count
and coordinate sums (coordinates `k < numCoords`) into the global accumulators
and zeroes the private cell; distinct (cluster, thread) cells are independent,
so the loop is rendered pointwise. -/
def reducePhase (P : KParams) (st : KState) : KState :=
  { st with
    newSize := fun c =>
      if c < P.numClusters then
        st.newSize c + ((List.range P.nthreads).map (fun t => st.localSize t c)).sum
      else st.newSize c
    localSize := fun t c =>
      if t < P.nthreads ∧ c < P.numClusters then 0 else st.localSize t c
    newSums := fun c k =>
      if c < P.numClusters ∧ k < P.numCoords then
        st.newSums c k + ((List.range P.nthreads).map (fun t => st.localSums t c k)).sum
      else st.newSums c k
    localSums := fun t c k =>
      if t < P.nthreads ∧ c < P.numClusters ∧ k < P.numCoords then 0
      else st.localSums t c k }

/-- The center update (lines 203-211): for each cluster `i` and coordinate `j`,
if `newClusterSize[i] > 1` replace `clusters[i][j]` by
`newClusters[i][j] / newClusterSize[i]`, then reset the accumulators to 0.
`newClusterSize[i]` is reset only after the whole coordinate loop of cluster
`i`, so every coordinate is divided by the full count. -/
def updatePhase (P : KParams) (st : KState) : KState :=
  { st with
    clusters := fun c j =>
      if c < P.numClusters ∧ j < P.numCoords ∧ 1 < st.newSize c then
        st.newSums c j / (st.newSize c : ℚ)
      else st.clusters c j
    newSums := fun c j => if c < P.numClusters ∧ j < P.numCoords then 0 else st.newSums c j
    newSize := fun c => if c < P.numClusters then 0 else st.newSize c }

/-- One body execution of the do-while loop (lines 153-212 up to the
`delta *= magnitude` line): reset `delta` to 0, run the parallel assignment
phase, the serial reduction, and the center update. -/
def kmIteration (P : KParams) (st : KState) : KState :=
  updatePhase P (reducePhase P (assignPhase P { st with delta := 0 }))

/-- `magnitude = (int)(1.0 / threshold)` (line 85).  The C cast truncates
toward zero; for the valid range `threshold > 0` that is the floor, which is
how it is rendered here. -/
def magnitude (P : KParams) : ℤ := ⌊(1 : ℚ) / P.threshold⌋

/-- The do-while loop (lines 153-214).  The C condition is
`delta > numObjs && loop++ < 500` where `delta` has just been scaled by
`magnitude`; the structural counter `remaining` stands for `500 - loop`, so
the initial call uses `remaining = 500`.  Returns the final state together
with the number of body executions. -/
def kmLoop (P : KParams) : ℕ → KState → KState × ℕ
  | 0, st =>
    let st1 := kmIteration P st
    ({ st1 with delta := st1.delta * magnitude P }, 1)
  | remaining + 1, st =>
    let st1 := kmIteration P st
    let st2 : KState := { st1 with delta := st1.delta * magnitude P }
    if (P.numObjs : ℤ) < st2.delta then
      let r := kmLoop P remaining st2
      (r.1, r.2 + 1)
    else (st2, 1)

/-- The state on entry to the do-while loop (lines 97-150): clusters are the
first `numClusters` objects, `membership[i] = -1`, and all accumulators are
zeroed (`calloc`). -/
def initState (P : KParams) (objects : ℕ → ℕ → ℚ) : KState where
  objects := objects
  clusters := fun c j => if c < P.numClusters ∧ j < P.numCoords then objects c j else 0
  membership := fun _ => -1
  localSize := fun _ _ => 0
  localSums := fun _ _ _ => 0
  newSize := fun _ => 0
  newSums := fun _ _ => 0
  delta := 0

/-- `omp_kmeans` (lines 72-236): initialise, run the do-while loop.  The first
component carries the returned `clusters` and the out-parameter `membership`;
the second component is the number of loop iterations executed. -/
def omp_kmeans (P : KParams) (objects : ℕ → ℕ → ℚ) : KState × ℕ :=
  kmLoop P 500 (initState P objects)

/-- The caller contract stated in the spec: points non-empty,
`0 < numClusters ≤ numObjs`, `numCoords > 0`, `threshold ∈ (0, 1]`, and the
OpenMP environment gives every loop iteration to an existing thread. -/
def ValidInput (P : KParams) : Prop :=
  0 < P.numObjs ∧ 0 < P.numClusters ∧ P.numClusters ≤ P.numObjs ∧ 0 < P.numCoords ∧
    0 < P.threshold ∧ P.threshold ≤ 1 ∧ 0 < P.nthreads ∧
    ∀ i, i < P.numObjs → P.tid i < P.nthreads

end KMeans

namespace KMeans

theorem assignPoint_objects (P : KParams) (st : KState) (i : ℕ) :
    (assignPoint P st i).objects = st.objects := rfl

theorem assignPoint_clusters (P : KParams) (st : KState) (i : ℕ) :
    (assignPoint P st i).clusters = st.clusters := rfl

theorem assignFold_objects (P : KParams) (L : List ℕ) (st : KState) :
    (L.foldl (assignPoint P) st).objects = st.objects := by
  induction L generalizing st with
  | nil => rfl
  | cons a L ih => rw [List.foldl_cons, ih, assignPoint_objects]

theorem assignFold_clusters (P : KParams) (L : List ℕ) (st : KState) :
    (L.foldl (assignPoint P) st).clusters = st.clusters := by
  induction L generalizing st with
  | nil => rfl
  | cons a L ih => rw [List.foldl_cons, ih, assignPoint_clusters]

theorem assignFold_newSize (P : KParams) (L : List ℕ) (st : KState) :
    (L.foldl (assignPoint P) st).newSize = st.newSize := by
  induction L generalizing st with
  | nil => rfl
  | cons a L ih => rw [List.foldl_cons, ih]; rfl

theorem assignFold_newSums (P : KParams) (L : List ℕ) (st : KState) :
    (L.foldl (assignPoint P) st).newSums = st.newSums := by
  induction L generalizing st with
  | nil => rfl
  | cons a L ih => rw [List.foldl_cons, ih]; rfl

theorem pointIndex_assignPoint (P : KParams) (st : KState) (a x : ℕ) :
    pointIndex P (assignPoint P st a) x = pointIndex P st x := rfl

theorem assignFold_membership (P : KParams) (L : List ℕ) (st : KState) (x : ℕ) :
    (L.foldl (assignPoint P) st).membership x =
      if x ∈ L then (pointIndex P st x : ℤ) else st.membership x := by
  induction L generalizing st with
  | nil => simp
  | cons a L ih =>
    rw [List.foldl_cons, ih]
    by_cases hxL : x ∈ L
    · simp [hxL, pointIndex_assignPoint]
    · by_cases hxa : x = a
      · subst hxa
        simp [hxL, assignPoint]
      · simp [hxL, hxa, assignPoint]

theorem assignPoint_membership_ne (P : KParams) (st : KState) (a x : ℕ) (h : x ≠ a) :
    (assignPoint P st a).membership x = st.membership x := by
  simp [assignPoint, h]

theorem assignFold_delta (P : KParams) (L : List ℕ) (hL : L.Nodup) (st : KState) :
    (L.foldl (assignPoint P) st).delta =
      st.delta +
        ((L.filter (fun x => st.membership x = (pointIndex P st x : ℤ))).length : ℤ) := by
  induction L generalizing st with
  | nil => simp
  | cons a L ih =>
    rcases List.nodup_cons.mp hL with ⟨ha, hL'⟩
    rw [List.foldl_cons, ih hL']
    have hmem : ∀ x ∈ L,
        (decide ((assignPoint P st a).membership x = (pointIndex P (assignPoint P st a) x : ℤ)))
          = (decide (st.membership x = (pointIndex P st x : ℤ))) := by
      intro x hx
      have hxa : x ≠ a := fun h => ha (h ▸ hx)
      rw [assignPoint_membership_ne P st a x hxa, pointIndex_assignPoint]
    rw [List.filter_congr hmem]
    have hdelta : (assignPoint P st a).delta =
        st.delta + (if st.membership a = (pointIndex P st a : ℤ) then 1 else 0) := rfl
    rw [hdelta, List.filter_cons]
    by_cases hcond : st.membership a = (pointIndex P st a : ℤ) <;>
      simp [hcond] <;> ring

theorem assignFold_localSize (P : KParams) (L : List ℕ) (st : KState) (t c : ℕ) :
    (L.foldl (assignPoint P) st).localSize t c =
      st.localSize t c +
        ((L.filter (fun x => t = P.tid x ∧ c = pointIndex P st x)).length : ℤ) := by
  induction L generalizing st with
  | nil => simp
  | cons a L ih =>
    rw [List.foldl_cons, ih]
    have hmem : ∀ x ∈ L,
        (decide (t = P.tid x ∧ c = pointIndex P (assignPoint P st a) x))
          = (decide (t = P.tid x ∧ c = pointIndex P st x)) := by
      intro x _
      simp [pointIndex_assignPoint]
    rw [List.filter_congr hmem]
    have hsz : (assignPoint P st a).localSize t c =
        st.localSize t c + (if t = P.tid a ∧ c = pointIndex P st a then 1 else 0) := by
      by_cases hcond : t = P.tid a ∧ c = pointIndex P st a <;> simp [assignPoint, hcond]
    rw [hsz, List.filter_cons]
    by_cases hcond : t = P.tid a ∧ c = pointIndex P st a <;>
      simp [hcond] <;> ring

theorem assignFold_localSums (P : KParams) (L : List ℕ) (st : KState) (t c j : ℕ)
    (hj : j < P.numCoords) :
    (L.foldl (assignPoint P) st).localSums t c j =
      st.localSums t c j +
        (((L.filter (fun x => t = P.tid x ∧ c = pointIndex P st x)).map
          (fun x => st.objects x j)).sum) := by
  induction L generalizing st with
  | nil => simp
  | cons a L ih =>
    rw [List.foldl_cons, ih]
    have hmem : ∀ x ∈ L,
        (decide (t = P.tid x ∧ c = pointIndex P (assignPoint P st a) x))
          = (decide (t = P.tid x ∧ c = pointIndex P st x)) := by
      intro x _
      simp [pointIndex_assignPoint]
    rw [List.filter_congr hmem]
    have hsm : (assignPoint P st a).localSums t c j =
        st.localSums t c j +
          (if t = P.tid a ∧ c = pointIndex P st a then st.objects a j else 0) := by
      by_cases hcond : t = P.tid a ∧ c = pointIndex P st a <;>
        simp [assignPoint, hcond, hj]
    have hobj : (assignPoint P st a).objects = st.objects := rfl
    rw [hsm, hobj, List.filter_cons]
    by_cases hcond : t = P.tid a ∧ c = pointIndex P st a <;>
      simp [hcond] <;> ring

end KMeans

namespace KMeans

theorem kmIteration_delta (P : KParams) (st : KState) :
    (kmIteration P st).delta = (assignPhase P { st with delta := 0 }).delta := rfl

/-- Line 181 adds `(membership[i] ^ index) == 0`, i.e. 1 exactly when the old
membership equals the new index.  On entry to the loop every membership is the
sentinel `-1` while every computed index is a natural number, so the first
iteration's `delta` is 0 for every input whatsoever. -/
theorem first_delta_eq_zero (P : KParams) (o : ℕ → ℕ → ℚ) :
    (kmIteration P (initState P o)).delta = 0 := by
  rw [kmIteration_delta]
  unfold assignPhase
  rw [assignFold_delta P _ (List.nodup_range _)]
  have hnil :
      (List.range P.numObjs).filter
          (fun x => ({ initState P o with delta := 0 } : KState).membership x
            = (pointIndex P { initState P o with delta := 0 } x : ℤ)) = [] := by
    apply List.filter_eq_nil_iff.mpr
    intro x _
    simp [initState]
  rw [hnil]
  simp [initState]

theorem kmLoop_succ_of_stop (P : KParams) (st : KState) (r : ℕ)
    (h : ¬ ((P.numObjs : ℤ) < (kmIteration P st).delta * magnitude P)) :
    kmLoop P (r + 1) st =
      ({ kmIteration P st with delta := (kmIteration P st).delta * magnitude P }, 1) := by
  rw [kmLoop]
  split
  · next h' => exact absurd h' h
  · rfl

/-- Every run of `omp_kmeans` executes exactly one do-while iteration: the
first `delta` is 0, `0 * magnitude = 0`, and `0 > numObjs` is false. -/
theorem omp_kmeans_run (P : KParams) (o : ℕ → ℕ → ℚ) :
    omp_kmeans P o = ({ kmIteration P (initState P o) with delta := 0 }, 1) := by
  have h0 := first_delta_eq_zero P o
  have hstop : ¬ ((P.numObjs : ℤ) < (kmIteration P (initState P o)).delta * magnitude P) := by
    rw [h0, zero_mul]
    exact not_lt.mpr (Int.natCast_nonneg _)
  calc omp_kmeans P o = kmLoop P (499 + 1) (initState P o) := rfl
    _ = ({ kmIteration P (initState P o) with
            delta := (kmIteration P (initState P o)).delta * magnitude P }, 1) :=
        kmLoop_succ_of_stop P (initState P o) 499 hstop
    _ = ({ kmIteration P (initState P o) with delta := 0 }, 1) := by rw [h0, zero_mul]

theorem omp_kmeans_iters (P : KParams) (o : ℕ → ℕ → ℚ) :
    (omp_kmeans P o).2 = 1 := by
  rw [omp_kmeans_run]

theorem kmIteration_objects (P : KParams) (st : KState) :
    (kmIteration P st).objects = st.objects :=
  assignFold_objects P (List.range P.numObjs) { st with delta := 0 }

theorem omp_kmeans_objects (P : KParams) (o : ℕ → ℕ → ℚ) :
    (omp_kmeans P o).1.objects = o := by
  rw [omp_kmeans_run]
  exact kmIteration_objects P (initState P o)

end KMeans

namespace Sums

theorem sum_map_add {α M : Type} [AddCommMonoid M] (l : List α) (f g : α → M) :
    (l.map (fun x => f x + g x)).sum = (l.map f).sum + (l.map g).sum := by
  induction l with
  | nil => simp
  | cons a l ih =>
    simp only [List.map_cons, List.sum_cons, ih]
    rw [add_add_add_comm]

theorem sum_ite_range' {M : Type} [AddCommMonoid M] (f : ℕ → M) (t : ℕ) :
    ∀ (len s : ℕ),
      ((List.range' s len 1).map (fun x => if x = t then f x else 0)).sum
        = if s ≤ t ∧ t < s + len then f t else 0 := by
  intro len
  induction len with
  | zero =>
    intro s
    simp [show ¬(s ≤ t ∧ t < s) by omega]
  | succ len ih =>
    intro s
    rw [List.range'_succ]
    simp only [List.map_cons, List.sum_cons, ih (s + 1)]
    by_cases hst : s = t
    · subst hst
      have h1 : ¬(s + 1 ≤ s ∧ s < s + 1 + len) := by omega
      have h2 : s ≤ s ∧ s < s + (len + 1) := by omega
      simp [h1, h2]
    · have h3 : (s + 1 ≤ t ∧ t < s + 1 + len) ↔ (s ≤ t ∧ t < s + (len + 1)) := by omega
      simp [hst, h3]

theorem sum_ite_range {M : Type} [AddCommMonoid M] (f : ℕ → M) (n t : ℕ) (ht : t < n) :
    ((List.range n).map (fun x => if x = t then f x else 0)).sum = f t := by
  rw [List.range_eq_range', sum_ite_range' f t n 0]
  simp [ht]

/-- Splitting a per-point count over the thread that handled the point:
summing, over all threads `t < T`, the number of elements of `L` handled by
`t` and satisfying `p`, gives the number of elements of `L` satisfying `p`. -/
theorem count_partition (L : List ℕ) (g : ℕ → ℕ) (p : ℕ → Prop) [DecidablePred p] (T : ℕ)
    (hg : ∀ x ∈ L, g x < T) :
    ((List.range T).map
      (fun t => ((L.filter (fun x => t = g x ∧ p x)).length : ℤ))).sum
      = ((L.filter (fun x => p x)).length : ℤ) := by
  induction L with
  | nil => simp
  | cons a L ih =>
    have hgL : ∀ x ∈ L, g x < T := fun x hx => hg x (List.mem_cons_of_mem a hx)
    by_cases hpa : p a
    · have hmap : ∀ t ∈ List.range T,
          (((a :: L).filter (fun x => t = g x ∧ p x)).length : ℤ)
            = (if t = g a then (1 : ℤ) else 0)
              + ((L.filter (fun x => t = g x ∧ p x)).length : ℤ) := by
        intro t _
        rw [List.filter_cons]
        by_cases hta : t = g a
        · simp [hta, hpa]
          push_cast
          ring
        · simp [hta]
      have hfc : (a :: L).filter (fun x => p x) = a :: L.filter (fun x => p x) := by
        simp [List.filter_cons, hpa]
      rw [List.map_congr_left hmap, sum_map_add,
        sum_ite_range (fun _ => (1 : ℤ)) T (g a) (hg a (List.mem_cons_self a L)),
        ih hgL, hfc, List.length_cons]
      push_cast
      ring
    · have hfc : (a :: L).filter (fun x => p x) = L.filter (fun x => p x) := by
        simp [List.filter_cons, hpa]
      have hmap : ∀ t ∈ List.range T,
          (((a :: L).filter (fun x => t = g x ∧ p x)).length : ℤ)
            = ((L.filter (fun x => t = g x ∧ p x)).length : ℤ) := by
        intro t _
        rw [List.filter_cons]
        simp [hpa]
      rw [List.map_congr_left hmap, ih hgL, hfc]

/-- The companion of `count_partition` for coordinate sums. -/
theorem sums_partition (L : List ℕ) (g : ℕ → ℕ) (p : ℕ → Prop) [DecidablePred p]
    (h : ℕ → ℚ) (T : ℕ) (hg : ∀ x ∈ L, g x < T) :
    ((List.range T).map
      (fun t => ((L.filter (fun x => t = g x ∧ p x)).map h).sum)).sum
      = ((L.filter (fun x => p x)).map h).sum := by
  induction L with
  | nil => simp
  | cons a L ih =>
    have hgL : ∀ x ∈ L, g x < T := fun x hx => hg x (List.mem_cons_of_mem a hx)
    by_cases hpa : p a
    · have hmap : ∀ t ∈ List.range T,
          (((a :: L).filter (fun x => t = g x ∧ p x)).map h).sum
            = (if t = g a then h a else 0)
              + ((L.filter (fun x => t = g x ∧ p x)).map h).sum := by
        intro t _
        rw [List.filter_cons]
        by_cases hta : t = g a
        · simp [hta, hpa]
        · simp [hta]
      have hfc : (a :: L).filter (fun x => p x) = a :: L.filter (fun x => p x) := by
        simp [List.filter_cons, hpa]
      rw [List.map_congr_left hmap, sum_map_add,
        sum_ite_range (fun _ => h a) T (g a) (hg a (List.mem_cons_self a L)),
        ih hgL, hfc]
      simp
    · have hfc : (a :: L).filter (fun x => p x) = L.filter (fun x => p x) := by
        simp [List.filter_cons, hpa]
      have hmap : ∀ t ∈ List.range T,
          (((a :: L).filter (fun x => t = g x ∧ p x)).map h).sum
            = ((L.filter (fun x => t = g x ∧ p x)).map h).sum := by
        intro t _
        rw [List.filter_cons]
        simp [hpa]
      rw [List.map_congr_left hmap, ih hgL, hfc]

end Sums

namespace KMeans

/-- The points of the run that the loop body assigns to center `c` (i.e. whose
computed `index` is `c`). -/
def assignedPoints (P : KParams) (st : KState) (c : ℕ) : List ℕ :=
  (List.range P.numObjs).filter (fun x => pointIndex P st x = c)

theorem assignPhase_localSize (P : KParams) (st : KState) (t c : ℕ) :
    (assignPhase P st).localSize t c =
      st.localSize t c +
        (((List.range P.numObjs).filter
          (fun x => t = P.tid x ∧ c = pointIndex P st x)).length : ℤ) :=
  assignFold_localSize P (List.range P.numObjs) st t c

theorem assignPhase_localSums (P : KParams) (st : KState) (t c j : ℕ)
    (hj : j < P.numCoords) :
    (assignPhase P st).localSums t c j =
      st.localSums t c j +
        (((List.range P.numObjs).filter
          (fun x => t = P.tid x ∧ c = pointIndex P st x)).map
            (fun x => st.objects x j)).sum :=
  assignFold_localSums P (List.range P.numObjs) st t c j hj

theorem reducePhase_newSize (P : KParams) (st : KState) (c : ℕ) (hc : c < P.numClusters) :
    (reducePhase P st).newSize c =
      st.newSize c + ((List.range P.nthreads).map (fun t => st.localSize t c)).sum := by
  simp [reducePhase, hc]

theorem reducePhase_newSums (P : KParams) (st : KState) (c k : ℕ)
    (hc : c < P.numClusters) (hk : k < P.numCoords) :
    (reducePhase P st).newSums c k =
      st.newSums c k + ((List.range P.nthreads).map (fun t => st.localSums t c k)).sum := by
  simp [reducePhase, hc, hk]

theorem reducePhase_clusters (P : KParams) (st : KState) :
    (reducePhase P st).clusters = st.clusters := rfl

theorem updatePhase_clusters_eq (P : KParams) (st : KState) (c j : ℕ) :
    (updatePhase P st).clusters c j =
      if c < P.numClusters ∧ j < P.numCoords ∧ 1 < st.newSize c then
        st.newSums c j / (st.newSize c : ℚ)
      else st.clusters c j := rfl

/-- C5: in every iteration, for each cluster center `c` and coordinate `j`:
if the global assigned-point count of `c` is greater than 1 the coordinate is
replaced by the coordinate-sum divided by the count, and if the count is 0 or
1 the coordinate is left unchanged.  The accumulator hypotheses say the global
and per-thread accumulators are zero on entry to the iteration, which holds on
loop entry (`calloc`) and is re-established by every reduction and update. -/
theorem center_update_rule (P : KParams) (st : KState)
    (hsz : ∀ c, c < P.numClusters → st.newSize c = 0)
    (hsm : ∀ c k, c < P.numClusters → k < P.numCoords → st.newSums c k = 0)
    (hls : ∀ t c, t < P.nthreads → c < P.numClusters → st.localSize t c = 0)
    (hlm : ∀ t c k, t < P.nthreads → c < P.numClusters → k < P.numCoords →
      st.localSums t c k = 0)
    (htid : ∀ i, i < P.numObjs → P.tid i < P.nthreads)
    (c j : ℕ) (hc : c < P.numClusters) (hj : j < P.numCoords) :
    (kmIteration P st).clusters c j =
      if 1 < (assignedPoints P st c).length then
        ((assignedPoints P st c).map (fun x => st.objects x j)).sum
          / ((assignedPoints P st c).length : ℚ)
      else st.clusters c j := by
  have hAcl : (assignPhase P { st with delta := 0 }).clusters = st.clusters :=
    (assignFold_clusters P (List.range P.numObjs) { st with delta := 0 }).trans rfl
  have hAsz : (assignPhase P { st with delta := 0 }).newSize = st.newSize :=
    (assignFold_newSize P (List.range P.numObjs) { st with delta := 0 }).trans rfl
  have hAsm : (assignPhase P { st with delta := 0 }).newSums = st.newSums :=
    (assignFold_newSums P (List.range P.numObjs) { st with delta := 0 }).trans rfl
  have hfilter : (List.range P.numObjs).filter (fun x => c = pointIndex P st x)
      = assignedPoints P st c := by
    unfold assignedPoints
    apply List.filter_congr
    intro x _
    simp [eq_comm]
  have hlsA : ∀ t, (assignPhase P { st with delta := 0 }).localSize t c =
      st.localSize t c +
        (((List.range P.numObjs).filter
          (fun x => t = P.tid x ∧ c = pointIndex P st x)).length : ℤ) := by
    intro t
    rw [assignPhase_localSize]
    rfl
  have hlmA : ∀ t, (assignPhase P { st with delta := 0 }).localSums t c j =
      st.localSums t c j +
        (((List.range P.numObjs).filter
          (fun x => t = P.tid x ∧ c = pointIndex P st x)).map
            (fun x => st.objects x j)).sum := by
    intro t
    rw [assignPhase_localSums P _ t c j hj]
    rfl
  have hsize : (reducePhase P (assignPhase P { st with delta := 0 })).newSize c
      = ((assignedPoints P st c).length : ℤ) := by
    rw [reducePhase_newSize P _ c hc, congrFun hAsz c, hsz c hc, zero_add]
    have hptw : ∀ t ∈ List.range P.nthreads,
        (assignPhase P { st with delta := 0 }).localSize t c =
          (((List.range P.numObjs).filter
            (fun x => t = P.tid x ∧ c = pointIndex P st x)).length : ℤ) := by
      intro t ht
      rw [hlsA t, hls t c (List.mem_range.mp ht) hc, zero_add]
    rw [List.map_congr_left hptw,
      Sums.count_partition (List.range P.numObjs) P.tid
        (fun x => c = pointIndex P st x) P.nthreads
        (fun x hx => htid x (List.mem_range.mp hx)),
      hfilter]
  have hsums : (reducePhase P (assignPhase P { st with delta := 0 })).newSums c j
      = ((assignedPoints P st c).map (fun x => st.objects x j)).sum := by
    rw [reducePhase_newSums P _ c j hc hj, congrFun (congrFun hAsm c) j, hsm c j hc hj,
      zero_add]
    have hptw : ∀ t ∈ List.range P.nthreads,
        (assignPhase P { st with delta := 0 }).localSums t c j =
          (((List.range P.numObjs).filter
            (fun x => t = P.tid x ∧ c = pointIndex P st x)).map
              (fun x => st.objects x j)).sum := by
      intro t ht
      rw [hlmA t, hlm t c j (List.mem_range.mp ht) hc hj, zero_add]
    rw [List.map_congr_left hptw,
      Sums.sums_partition (List.range P.numObjs) P.tid
        (fun x => c = pointIndex P st x) (fun x => st.objects x j) P.nthreads
        (fun x hx => htid x (List.mem_range.mp hx)),
      hfilter]
  show (updatePhase P (reducePhase P (assignPhase P { st with delta := 0 }))).clusters c j = _
  rw [updatePhase_clusters_eq, hsize, hsums, reducePhase_clusters, hAcl]
  by_cases hlen : 1 < (assignedPoints P st c).length
  · rw [if_pos ⟨hc, hj, by exact_mod_cast hlen⟩, if_pos hlen]
    norm_cast
  · rw [if_neg (fun hcontra => hlen (by exact_mod_cast hcontra.2.2)), if_neg hlen]

end KMeans

namespace KMeans

/-- Failing input: three points in one dimension, at coordinates 0, 10, 10. -/
def exObjects : ℕ → ℕ → ℚ := fun i _ => if i = 0 then 0 else 10

/-- Failing input parameters: numCoords 1, numObjs 3, numClusters 2,
threshold 1, a single thread. -/
def exParams : KParams where
  numCoords := 1
  numObjs := 3
  numClusters := 2
  threshold := 1
  nthreads := 1
  tid := fun _ => 0

theorem ex_valid : ValidInput exParams := by
  refine ⟨?_, ?_, ?_, ?_, ?_, ?_, ?_, fun i _ => Nat.one_pos⟩ <;> decide

/-- On the failing input the loop body computes index 0 for point 0 and, for
every other point `x`, the point's own index `x` (the initial centers are at 0
and 10, every point other than point 0 sits at 10, so center 1 beats center 0
and line 177 stores the point index). -/
theorem ex_pointIndex (x : ℕ) :
    pointIndex exParams (initState exParams exObjects) x = if x = 0 then 0 else x := by
  by_cases hx : x = 0
  · subst hx
    norm_num [pointIndex, inlined_nearest, euclid_dist_2, initState, exParams, exObjects,
      List.range', List.range_succ]
  · simp only [if_neg hx]
    norm_num [pointIndex, inlined_nearest, euclid_dist_2, initState, exParams, exObjects,
      hx, List.range', List.range_succ]

theorem ex_membership2 : (omp_kmeans exParams exObjects).1.membership 2 = 2 := by
  rw [omp_kmeans_run]
  show (assignPhase exParams { initState exParams exObjects with delta := 0 }).membership 2 = 2
  have h := assignFold_membership exParams (List.range exParams.numObjs)
    { initState exParams exObjects with delta := 0 } 2
  rw [show assignPhase exParams { initState exParams exObjects with delta := 0 }
      = (List.range exParams.numObjs).foldl (assignPoint exParams)
          { initState exParams exObjects with delta := 0 } from rfl, h,
    if_pos (by decide : (2 : ℕ) ∈ List.range exParams.numObjs)]
  rw [show pointIndex exParams { initState exParams exObjects with delta := 0 }
      = pointIndex exParams (initState exParams exObjects) from rfl, ex_pointIndex 2]
  norm_num

theorem ex_find_nearest2 :
    find_nearest_cluster exParams.numClusters exParams.numCoords (exObjects 2)
      ((initState exParams exObjects).clusters) = 1 := by
  norm_num [find_nearest_cluster, euclid_dist_2, initState, exParams, exObjects,
    List.range', List.range_succ]

end KMeans

namespace KMeans

/-- C1: violated by the code.  On the failing input (points 0, 10, 10 in one
dimension, two clusters initialised at 0 and 10), the run assigns membership 2
to point 2, although the index of the center at minimum squared Euclidean
distance from point 2 - as computed by the source's own `find_nearest_cluster`
- is 1: line 177 of the inlined search stores the point index, not the center
index. -/
theorem membership_is_not_nearest_center :
    (omp_kmeans exParams exObjects).1.membership 2 = 2 ∧
      find_nearest_cluster exParams.numClusters exParams.numCoords (exObjects 2)
        ((initState exParams exObjects).clusters) = 1 :=
  ⟨ex_membership2, ex_find_nearest2⟩

/-- C2: violated by the code.  The failing input is valid (3 points, 2 ≤ 3
clusters, 1 coordinate, threshold 1 ∈ (0,1]), yet the returned membership of
point 2 is 2, which is not below numClusters = 2. -/
theorem membership_out_of_range :
    ValidInput exParams ∧
      (omp_kmeans exParams exObjects).1.membership 2 = 2 ∧
      ¬ ((omp_kmeans exParams exObjects).1.membership 2 < (exParams.numClusters : ℤ)) := by
  refine ⟨ex_valid, ex_membership2, ?_⟩
  rw [ex_membership2]
  decide

/-- C3: violated by the code.  In the first iteration on the failing input all
3 points change membership (every previous membership is the sentinel -1 and
every new index is a natural number), yet the code's `delta` is 0, because
line 181 adds `(membership[i] ^ index) == 0`, which counts the points whose
new assignment EQUALS the previous membership. -/
theorem delta_counts_equal_not_changed :
    (kmIteration exParams (initState exParams exObjects)).delta = 0 ∧
      ((List.range exParams.numObjs).filter
        (fun i => (initState exParams exObjects).membership i ≠
          (pointIndex exParams (initState exParams exObjects) i : ℤ))).length = 3 := by
  refine ⟨first_delta_eq_zero exParams exObjects, ?_⟩
  have hall : ∀ x ∈ List.range exParams.numObjs,
      (initState exParams exObjects).membership x ≠
        (pointIndex exParams (initState exParams exObjects) x : ℤ) := by
    intro x _
    show (-1 : ℤ) ≠ _
    omega
  have hfe : (List.range exParams.numObjs).filter
      (fun i => (initState exParams exObjects).membership i ≠
        (pointIndex exParams (initState exParams exObjects) i : ℤ))
      = List.range exParams.numObjs :=
    List.filter_eq_self.mpr (fun a ha => by simpa using hall a ha)
  rw [hfe]
  decide

/-- C4: the loop's convergence check.  For every valid input the run makes
exactly one check (after its single iteration), the check declares
convergence, and the claim's predicate `delta * ceil(1/threshold) <= numObjs`
holds there as well, so the two agree at every reachable check.  (The code
computes `(int)(1.0/threshold)`, truncation rather than ceiling, but the raw
`delta` of the checked iteration is always 0, where both predicates
coincide.) -/
theorem convergence_check_agrees (P : KParams) (o : ℕ → ℕ → ℚ) (hv : ValidInput P) :
    (omp_kmeans P o).2 = 1 ∧
      ¬ ((P.numObjs : ℤ) < (kmIteration P (initState P o)).delta * magnitude P) ∧
      (kmIteration P (initState P o)).delta * ⌈(1 : ℚ) / P.threshold⌉ ≤ (P.numObjs : ℤ) := by
  refine ⟨omp_kmeans_iters P o, ?_, ?_⟩
  · rw [first_delta_eq_zero, zero_mul]
    exact not_lt.mpr (Int.natCast_nonneg _)
  · rw [first_delta_eq_zero, zero_mul]
    exact Int.natCast_nonneg _

/-- C4 witness: the theorem applied at the concrete valid input. -/
theorem convergence_check_agrees_witness :
    ValidInput exParams ∧
      ((omp_kmeans exParams exObjects).2 = 1 ∧
        ¬ ((exParams.numObjs : ℤ) <
            (kmIteration exParams (initState exParams exObjects)).delta * magnitude exParams) ∧
        (kmIteration exParams (initState exParams exObjects)).delta *
            ⌈(1 : ℚ) / exParams.threshold⌉ ≤ (exParams.numObjs : ℤ)) :=
  ⟨ex_valid, convergence_check_agrees exParams exObjects ex_valid⟩

/-- C6: the loop always terminates and executes at most 500 iterations.  In
fact, because the first iteration's raw `delta` is always 0 (line 181 counts
matches against the -1 sentinel), every run executes exactly one iteration. -/
theorem loop_iterations_within_cap (P : KParams) (o : ℕ → ℕ → ℚ) :
    (omp_kmeans P o).2 ≤ 500 := by
  rw [omp_kmeans_iters]
  norm_num

/-- C7: with threshold = 1 the run declares convergence after exactly one
iteration: the exit is by the delta test (the final scaled delta is at most
numObjs), not by the iteration cap. -/
theorem threshold_one_converges_first_iteration (P : KParams) (o : ℕ → ℕ → ℚ)
    (hv : ValidInput P) (hth : P.threshold = 1) :
    (omp_kmeans P o).2 = 1 ∧ (omp_kmeans P o).1.delta ≤ (P.numObjs : ℤ) := by
  refine ⟨omp_kmeans_iters P o, ?_⟩
  rw [omp_kmeans_run]
  show (0 : ℤ) ≤ (P.numObjs : ℤ)
  exact Int.natCast_nonneg _

/-- C7 witness: the theorem applied at the concrete valid input with
threshold 1. -/
theorem threshold_one_witness :
    (ValidInput exParams ∧ exParams.threshold = 1) ∧
      ((omp_kmeans exParams exObjects).2 = 1 ∧
        (omp_kmeans exParams exObjects).1.delta ≤ (exParams.numObjs : ℤ)) :=
  ⟨⟨ex_valid, rfl⟩, threshold_one_converges_first_iteration exParams exObjects ex_valid rfl⟩

/-- C5 witness: the center-update theorem applied to the concrete input at
center 0, coordinate 0 (all accumulators of the initial state are zero). -/
theorem center_update_rule_witness :
    (0 < exParams.numClusters ∧ 0 < exParams.numCoords) ∧
      (kmIteration exParams (initState exParams exObjects)).clusters 0 0 =
        if 1 < (assignedPoints exParams (initState exParams exObjects) 0).length then
          ((assignedPoints exParams (initState exParams exObjects) 0).map
            (fun x => (initState exParams exObjects).objects x 0)).sum
            / ((assignedPoints exParams (initState exParams exObjects) 0).length : ℚ)
        else (initState exParams exObjects).clusters 0 0 :=
  ⟨⟨by decide, by decide⟩,
    center_update_rule exParams (initState exParams exObjects)
      (fun _ _ => rfl) (fun _ _ _ _ => rfl) (fun _ _ _ _ => rfl) (fun _ _ _ _ _ _ => rfl)
      (fun i hi => ex_valid.2.2.2.2.2.2.2 i hi) 0 0 (by decide) (by decide)⟩

/-- C8: the input points are identical before and after the call (`objects` is
never written), and the parallel assignment phase never writes the cluster
centers (it only writes membership, delta and the per-thread accumulators). -/
theorem objects_and_clusters_frame (P : KParams) (o : ℕ → ℕ → ℚ) (st : KState) :
    (omp_kmeans P o).1.objects = o ∧
      (assignPhase P st).objects = st.objects ∧
      (assignPhase P st).clusters = st.clusters :=
  ⟨omp_kmeans_objects P o, assignFold_objects P (List.range P.numObjs) st,
    assignFold_clusters P (List.range P.numObjs) st⟩

/-- C10: violated by the code.  On the failing input the index chosen for
point 2 is 2 (the point index, line 177), the parallel phase increments
`local_newClusterSize[tid][2]`, and 2 is not below numClusters = 2 - the
accumulator access is outside the `numClusters` entries allocated per
worker. -/
theorem accumulator_index_out_of_range :
    pointIndex exParams (initState exParams exObjects) 2 = 2 ∧
      (assignPhase exParams (initState exParams exObjects)).localSize (exParams.tid 2) 2 = 1 ∧
      ¬ (2 < exParams.numClusters) := by
  refine ⟨by rw [ex_pointIndex]; norm_num, ?_, by decide⟩
  rw [assignPhase_localSize]
  have hfl : (List.range exParams.numObjs).filter
      (fun x => exParams.tid 2 = exParams.tid x ∧
        2 = pointIndex exParams (initState exParams exObjects) x) = [2] := by
    have h0 := ex_pointIndex 0
    have h1 := ex_pointIndex 1
    have h2 := ex_pointIndex 2
    norm_num at h0 h1 h2
    rw [show List.range exParams.numObjs = [0, 1, 2] by decide]
    simp [List.filter_cons, h0, h1, h2, show ∀ x, exParams.tid x = 0 from fun _ => rfl]
  rw [hfl]
  show (0 : ℤ) + 1 = 1
  norm_num

end KMeans

namespace MatMul

/-- A single `result[n] += v` store into the flat result buffer. -/
def addAt (res : ℕ → ℚ) (n : ℕ) (v : ℚ) : ℕ → ℚ :=
  fun m => if m = n then res m + v else res m

/-- Replay a list of `+=` updates (position, value) in program order. -/
def applyUpdates (res : ℕ → ℚ) (L : List (ℕ × ℚ)) : ℕ → ℚ :=
  L.foldl (fun r p => addAt r p.1 p.2) res

/-- `memset(sq_matrix_result, 0, dim*dim*sizeof(float))`. -/
def memset0 (res : ℕ → ℚ) (dim : ℕ) : ℕ → ℚ :=
  fun n => if n < dim * dim then 0 else res n

/-- The specified result entry: sum over `k < dim` of `A[i][k] * B[k][j]` in
row-major layout.  (Definition follows the spec's contract
`multiply(A, B, dim) -> C`, to be compared with both implementations.) -/
def mmSpec (A B : ℕ → ℚ) (dim i j : ℕ) : ℚ :=
  ((List.range dim).map (fun k => A (i * dim + k) * B (k * dim + j))).sum

/-- The naive triple loop of matrix_mul.cpp (lines 80-89):
`result[i*dim+j] += A[i*dim+k] * B[k*dim+j]` for `i`, `j`, `k` in `[0,dim)`. -/
def naiveUpdates (A B : ℕ → ℚ) (dim : ℕ) : List (ℕ × ℚ) :=
  (List.range dim).flatMap fun i =>
    (List.range dim).flatMap fun j =>
      (List.range dim).map fun k =>
        (i * dim + j, A (i * dim + k) * B (k * dim + j))

/-- The `blk_range` computation of matrix_mul.cpp (lines 43-47): start at 128
and decrement while it does not divide `dim`.  `blkRangeAux dim b` is the
loop's result when entered with the value `b`. -/
def blkRangeAux (dim : ℕ) : ℕ → ℕ
  | 0 => 0
  | b + 1 => if dim % (b + 1) = 0 then b + 1 else blkRangeAux dim b

def blkRange (dim : ℕ) : ℕ := blkRangeAux dim 128

/-- The count loop of `matrix_multiplication_subblock` (matrix_mul.cpp, lines
106-169): while `count < bs`, either a 4-way unrolled `+=` of four products
(when `count + 4 < bs`) advancing by 4, or a single `+=` advancing by 1.
`o1`, `o2`, `ores` are the offsets of the sub-block pointers `m1`, `m2`,
`result` inside the flat matrices. -/
def countUpdates (A B : ℕ → ℚ) (bs dim o1 o2 ores row col count : ℕ) : List (ℕ × ℚ) :=
  if h : count < bs then
    if h4 : count + 4 < bs then
      (ores + row * dim + col,
        A (o1 + row * dim + count) * B (o2 + count * dim + col)
          + A (o1 + row * dim + count + 1) * B (o2 + (count + 1) * dim + col)
          + A (o1 + row * dim + count + 2) * B (o2 + (count + 2) * dim + col)
          + A (o1 + row * dim + count + 3) * B (o2 + (count + 3) * dim + col))
        :: countUpdates A B bs dim o1 o2 ores row col (count + 4)
    else
      (ores + row * dim + col, A (o1 + row * dim + count) * B (o2 + count * dim + col))
        :: countUpdates A B bs dim o1 o2 ores row col (count + 1)
  else []
termination_by bs - count
decreasing_by
  all_goals omega

/-- `matrix_multiplication_subblock` (matrix_mul.cpp, lines 103-171): `col`
and `row` loops over the block, then the count loop from 0. -/
def subblockUpdates (A B : ℕ → ℚ) (bs dim o1 o2 ores : ℕ) : List (ℕ × ℚ) :=
  (List.range bs).flatMap fun col =>
    (List.range bs).flatMap fun row =>
      countUpdates A B bs dim o1 o2 ores row col 0

/-- The blocked path of matrix_mul.cpp (lines 57-76): `j`, `i`, `k` loops in
steps of `blk_range` (ceil(dim/blk_range) steps each), each calling the
subblock at pointer offsets `i*dim+k`, `k*dim+j`, `i*dim+j`. -/
def blockedUpdates (A B : ℕ → ℚ) (dim : ℕ) : List (ℕ × ℚ) :=
  (List.range' 0 ((dim + blkRange dim - 1) / blkRange dim) (blkRange dim)).flatMap fun j =>
    (List.range' 0 ((dim + blkRange dim - 1) / blkRange dim) (blkRange dim)).flatMap fun i =>
      (List.range' 0 ((dim + blkRange dim - 1) / blkRange dim) (blkRange dim)).flatMap fun k =>
        subblockUpdates A B (blkRange dim) dim (i * dim + k) (k * dim + j) (i * dim + j)

/-- `omp::matrix_multiplication` of matrix_mul.cpp (lines 33-91): memset the
result, then the blocked path when `dim >= 256`, the naive triple loop
otherwise. -/
def matrix_multiplication (A B res : ℕ → ℚ) (dim : ℕ) : ℕ → ℚ :=
  if 256 ≤ dim then applyUpdates (memset0 res dim) (blockedUpdates A B dim)
  else applyUpdates (memset0 res dim) (naiveUpdates A B dim)

/-- `omp::matrix_multiplication` of matrix_mul4.cc (lines 29-50): memset, then
`kk`, `jj` blocks of 64, `i` over all rows, `k` in `[kk, min(dim,kk+64))`,
`j` in `[jj, min(dim,jj+64))`, each doing the atomic
`result[dim*i+j] += A[dim*i+k] * B[dim*k+j]`. -/
def mm4Updates (A B : ℕ → ℚ) (dim : ℕ) : List (ℕ × ℚ) :=
  (List.range' 0 ((dim + 63) / 64) 64).flatMap fun kk =>
    (List.range' 0 ((dim + 63) / 64) 64).flatMap fun jj =>
      (List.range dim).flatMap fun i =>
        (List.range' kk (min dim (kk + 64) - kk) 1).flatMap fun k =>
          (List.range' jj (min dim (jj + 64) - jj) 1).map fun j =>
            (dim * i + j, A (dim * i + k) * B (dim * k + j))

def matrix_multiplication4 (A B res : ℕ → ℚ) (dim : ℕ) : ℕ → ℚ :=
  applyUpdates (memset0 res dim) (mm4Updates A B dim)

end MatMul

namespace MatMul

/-- The total value added at position `n` by a list of updates. -/
def sumAt (n : ℕ) (L : List (ℕ × ℚ)) : ℚ :=
  ((L.filter (fun p => p.1 = n)).map Prod.snd).sum

theorem applyUpdates_apply (L : List (ℕ × ℚ)) :
    ∀ (res : ℕ → ℚ) (n : ℕ), applyUpdates res L n = res n + sumAt n L := by
  induction L with
  | nil => intro res n; simp [applyUpdates, sumAt]
  | cons p L ih =>
    intro res n
    show applyUpdates (addAt res p.1 p.2) L n = _
    rw [ih]
    unfold sumAt addAt
    rw [List.filter_cons]
    by_cases hp : p.1 = n
    · simp [hp]
      ring
    · have hp' : ¬ n = p.1 := fun h => hp h.symm
      simp [hp, hp']

theorem sumAt_append (n : ℕ) (L1 L2 : List (ℕ × ℚ)) :
    sumAt n (L1 ++ L2) = sumAt n L1 + sumAt n L2 := by
  unfold sumAt
  rw [List.filter_append, List.map_append, List.sum_append]

theorem sumAt_flatMap {α : Type} (n : ℕ) (l : List α) (f : α → List (ℕ × ℚ)) :
    sumAt n (l.flatMap f) = (l.map (fun x => sumAt n (f x))).sum := by
  induction l with
  | nil => rfl
  | cons a l ih =>
    rw [List.flatMap_cons, sumAt_append, ih]
    simp

theorem sumAt_map {α : Type} (n : ℕ) (l : List α) (g : α → ℕ) (v : α → ℚ) :
    sumAt n (l.map fun x => (g x, v x)) =
      (l.map (fun x => if g x = n then v x else 0)).sum := by
  induction l with
  | nil => rfl
  | cons a l ih =>
    unfold sumAt at *
    rw [List.map_cons, List.filter_cons]
    by_cases hg : g a = n
    · simp [hg, ih]
    · simp [hg, ih]

theorem sum_map_zero {α : Type} (l : List α) : (l.map (fun _ => (0 : ℚ))).sum = 0 := by
  simp

/-- Blocks starting at or past `dim` contribute nothing: the inner range
`[kk, min dim (kk+bs))` is empty. -/
theorem sum_blocks_zero (f : ℕ → ℚ) (dim bs : ℕ) :
    ∀ (cnt s : ℕ), dim ≤ s →
      ((List.range' s cnt bs).map
        (fun kk => ((List.range' kk (min dim (kk + bs) - kk) 1).map f).sum)).sum = 0 := by
  intro cnt
  induction cnt with
  | zero => intro s _; rfl
  | succ cnt ih =>
    intro s hs
    rw [List.range'_succ]
    simp only [List.map_cons, List.sum_cons]
    have hlen : min dim (s + bs) - s = 0 := by omega
    rw [hlen, ih (s + bs) (by omega)]
    simp

/-- The inner block ranges `[kk, min dim (kk+bs))`, for `kk = s, s+bs, ...`
covering `[s, dim)`, partition `[s, dim)`. -/
theorem sum_blocks_cover (f : ℕ → ℚ) (dim bs : ℕ) (hbs : 0 < bs) :
    ∀ (cnt s : ℕ), dim ≤ s + cnt * bs →
      ((List.range' s cnt bs).map
        (fun kk => ((List.range' kk (min dim (kk + bs) - kk) 1).map f).sum)).sum
        = ((List.range' s (dim - s) 1).map f).sum := by
  intro cnt
  induction cnt with
  | zero =>
    intro s hcov
    have : dim - s = 0 := by omega
    rw [this]
    rfl
  | succ cnt ih =>
    intro s hcov
    rw [List.range'_succ]
    simp only [List.map_cons, List.sum_cons]
    by_cases hsd : s + bs ≤ dim
    · have hlen : min dim (s + bs) - s = bs := by omega
      have hcov' : dim ≤ (s + bs) + cnt * bs := by
        have hx := Nat.succ_mul cnt bs
        linarith [hcov, hx]
      rw [hlen, ih (s + bs) hcov']
      have hsplit : List.range' s bs 1 ++ List.range' (s + bs) (dim - (s + bs)) 1
          = List.range' s (dim - s) 1 := by
        have h1 : s + 1 * bs = s + bs := by ring
        have h2 : (dim - (s + bs)) + bs = dim - s := by omega
        rw [← h2, ← List.range'_append s bs (dim - (s + bs)) 1, h1]
      rw [← hsplit, List.map_append, List.sum_append]
    · have hlen : min dim (s + bs) - s = dim - s := by omega
      rw [hlen, sum_blocks_zero f dim bs cnt (s + bs) (by omega)]
      simp

/-- Exactly one block of the cover contains a given `t < dim`; selecting a
fixed value on that block sums to the value. -/
theorem sum_blocks_select_zero (v : ℚ) (bs t : ℕ) :
    ∀ (cnt s : ℕ), t < s →
      ((List.range' s cnt bs).map
        (fun kk => if kk ≤ t ∧ t < kk + bs then v else 0)).sum = 0 := by
  intro cnt
  induction cnt with
  | zero => intro s _; rfl
  | succ cnt ih =>
    intro s hts
    rw [List.range'_succ]
    simp only [List.map_cons, List.sum_cons]
    rw [if_neg (by omega), ih (s + bs) (by omega)]
    simp

theorem sum_blocks_select (v : ℚ) (dim bs t : ℕ) (hbs : 0 < bs) (ht : t < dim) :
    ∀ (cnt s : ℕ), dim ≤ s + cnt * bs → s ≤ t →
      ((List.range' s cnt bs).map
        (fun kk => if kk ≤ t ∧ t < kk + bs then v else 0)).sum = v := by
  intro cnt
  induction cnt with
  | zero => intro s hcov hst; omega
  | succ cnt ih =>
    intro s hcov hst
    rw [List.range'_succ]
    simp only [List.map_cons, List.sum_cons]
    by_cases hts : t < s + bs
    · rw [if_pos ⟨hst, hts⟩, sum_blocks_select_zero v bs t cnt (s + bs) (by omega)]
      simp
    · have hcov' : dim ≤ (s + bs) + cnt * bs := by
        have hx := Nat.succ_mul cnt bs
        linarith [hcov, hx]
      rw [if_neg (by omega), ih (s + bs) hcov' (by omega)]
      simp

/-- Decomposing a flat row-major position: with both columns below `dim`,
two positions agree exactly when rows and columns agree. -/
theorem rowcol_inj (dim a b c d : ℕ) (hb : b < dim) (hd : d < dim) :
    (a * dim + b = c * dim + d) ↔ (a = c ∧ b = d) := by
  constructor
  · intro h
    have hac : a = c := by
      by_contra hne
      rcases Nat.lt_or_ge a c with hlt | hge
      · have : a * dim + b < c * dim + d := by
          calc a * dim + b < a * dim + dim := by omega
            _ = (a + 1) * dim := by ring
            _ ≤ c * dim := Nat.mul_le_mul_right dim (Nat.succ_le_of_lt hlt)
            _ ≤ c * dim + d := Nat.le_add_right _ _
        exact absurd h (Nat.ne_of_lt this)
      · have hlt' : c < a := by omega
        have : c * dim + d < a * dim + b := by
          calc c * dim + d < c * dim + dim := by omega
            _ = (c + 1) * dim := by ring
            _ ≤ a * dim := Nat.mul_le_mul_right dim (Nat.succ_le_of_lt hlt')
            _ ≤ a * dim + b := Nat.le_add_right _ _
        exact absurd h.symm (Nat.ne_of_lt this)
    refine ⟨hac, ?_⟩
    subst hac
    exact Nat.add_left_cancel h
  · rintro ⟨rfl, rfl⟩
    rfl

theorem rowcol_inj' (dim a b c d : ℕ) (hb : b < dim) (hd : d < dim) :
    (dim * a + b = dim * c + d) ↔ (a = c ∧ b = d) := by
  rw [Nat.mul_comm dim a, Nat.mul_comm dim c]
  exact rowcol_inj dim a b c d hb hd

theorem pos_lt_sq (dim i j : ℕ) (hi : i < dim) (hj : j < dim) :
    i * dim + j < dim * dim := by
  calc i * dim + j < i * dim + dim := by omega
    _ = (i + 1) * dim := by ring
    _ ≤ dim * dim := Nat.mul_le_mul_right dim (Nat.succ_le_of_lt hi)

end MatMul

namespace MatMul

theorem naive_correct (A B res : ℕ → ℚ) (dim i j : ℕ) (hi : i < dim) (hj : j < dim) :
    applyUpdates (memset0 res dim) (naiveUpdates A B dim) (i * dim + j) = mmSpec A B dim i j := by
  rw [applyUpdates_apply]
  have hmem : memset0 res dim (i * dim + j) = 0 := by
    unfold memset0
    rw [if_pos (pos_lt_sq dim i j hi hj)]
  rw [hmem, zero_add]
  unfold naiveUpdates
  rw [sumAt_flatMap]
  have houter : ∀ i' ∈ List.range dim,
      sumAt (i * dim + j) ((List.range dim).flatMap fun j' =>
        (List.range dim).map fun k => (i' * dim + j', A (i' * dim + k) * B (k * dim + j')))
        = if i' = i then mmSpec A B dim i j else 0 := by
    intro i' _
    rw [sumAt_flatMap]
    have hinner : ∀ j' ∈ List.range dim,
        sumAt (i * dim + j) ((List.range dim).map fun k =>
          (i' * dim + j', A (i' * dim + k) * B (k * dim + j')))
          = if i' = i ∧ j' = j then mmSpec A B dim i j else 0 := by
      intro j' hj'
      rw [sumAt_map]
      by_cases hcond : i' * dim + j' = i * dim + j
      · obtain ⟨hii, hjj⟩ :=
          (rowcol_inj dim i' j' i j (List.mem_range.mp hj') hj).mp hcond
        subst hii
        subst hjj
        simp [mmSpec]
      · rw [if_neg (fun hand => hcond (by rw [hand.1, hand.2]))]
        simp [hcond]
    rw [List.map_congr_left hinner]
    by_cases hii : i' = i
    · subst hii
      have hsimp : (List.range dim).map
            (fun j' => if i' = i' ∧ j' = j then mmSpec A B dim i' j else 0)
          = (List.range dim).map (fun j' => if j' = j then mmSpec A B dim i' j else 0) := by
        apply List.map_congr_left
        intro x _
        simp
      rw [hsimp, Sums.sum_ite_range (fun _ => mmSpec A B dim i' j) dim j hj, if_pos rfl]
    · rw [if_neg hii]
      simp [hii]
  rw [List.map_congr_left houter, Sums.sum_ite_range (fun _ => mmSpec A B dim i j) dim i hi]

end MatMul

namespace MatMul

theorem mm4_correct (A B res : ℕ → ℚ) (dim i j : ℕ) (hi : i < dim) (hj : j < dim) :
    matrix_multiplication4 A B res dim (dim * i + j) = mmSpec A B dim i j := by
  unfold matrix_multiplication4
  rw [applyUpdates_apply]
  have hmem : memset0 res dim (dim * i + j) = 0 := by
    unfold memset0
    rw [if_pos (by rw [Nat.mul_comm dim i]; exact pos_lt_sq dim i j hi hj)]
  rw [hmem, zero_add]
  unfold mm4Updates
  rw [sumAt_flatMap]
  have hkk : ∀ kk ∈ List.range' 0 ((dim + 63) / 64) 64,
      sumAt (dim * i + j) ((List.range' 0 ((dim + 63) / 64) 64).flatMap fun jj =>
        (List.range dim).flatMap fun i' =>
          (List.range' kk (min dim (kk + 64) - kk) 1).flatMap fun k =>
            (List.range' jj (min dim (jj + 64) - jj) 1).map fun j' =>
              (dim * i' + j', A (dim * i' + k) * B (dim * k + j')))
        = ((List.range' kk (min dim (kk + 64) - kk) 1).map
            (fun k => A (dim * i + k) * B (dim * k + j))).sum := by
    intro kk _
    rw [sumAt_flatMap]
    have hjj : ∀ jj ∈ List.range' 0 ((dim + 63) / 64) 64,
        sumAt (dim * i + j) ((List.range dim).flatMap fun i' =>
          (List.range' kk (min dim (kk + 64) - kk) 1).flatMap fun k =>
            (List.range' jj (min dim (jj + 64) - jj) 1).map fun j' =>
              (dim * i' + j', A (dim * i' + k) * B (dim * k + j')))
          = if jj ≤ j ∧ j < jj + 64 then
              ((List.range' kk (min dim (kk + 64) - kk) 1).map
                (fun k => A (dim * i + k) * B (dim * k + j))).sum
            else 0 := by
      intro jj _
      rw [sumAt_flatMap]
      have hii : ∀ i' ∈ List.range dim,
          sumAt (dim * i + j) ((List.range' kk (min dim (kk + 64) - kk) 1).flatMap fun k =>
            (List.range' jj (min dim (jj + 64) - jj) 1).map fun j' =>
              (dim * i' + j', A (dim * i' + k) * B (dim * k + j')))
            = if i' = i then
                (if jj ≤ j ∧ j < jj + 64 then
                  ((List.range' kk (min dim (kk + 64) - kk) 1).map
                    (fun k => A (dim * i + k) * B (dim * k + j))).sum
                else 0)
              else 0 := by
        intro i' _
        rw [sumAt_flatMap]
        have hkstep : ∀ k ∈ List.range' kk (min dim (kk + 64) - kk) 1,
            sumAt (dim * i + j) ((List.range' jj (min dim (jj + 64) - jj) 1).map fun j' =>
              (dim * i' + j', A (dim * i' + k) * B (dim * k + j')))
              = if i' = i then
                  (if jj ≤ j ∧ j < jj + 64 then A (dim * i + k) * B (dim * k + j) else 0)
                else 0 := by
          intro k _
          rw [sumAt_map]
          have hcg : ∀ j' ∈ List.range' jj (min dim (jj + 64) - jj) 1,
              (if dim * i' + j' = dim * i + j then A (dim * i' + k) * B (dim * k + j') else 0)
                = (if j' = j then
                    (if i' = i then A (dim * i + k) * B (dim * k + j') else 0)
                  else 0) := by
            intro j' hj'
            have hj'd : j' < dim := by
              obtain ⟨t, ht, hteq⟩ := List.mem_range'.mp hj'
              omega
            rw [if_congr (rowcol_inj' dim i' j' i j hj'd hj) rfl rfl]
            by_cases h1 : j' = j
            · by_cases h2 : i' = i
              · subst h1
                subst h2
                simp
              · simp [h1, h2]
            · simp [h1]
          rw [List.map_congr_left hcg,
            Sums.sum_ite_range' (fun j' => if i' = i then A (dim * i + k) * B (dim * k + j') else 0)
              j (min dim (jj + 64) - jj) jj]
          have hcond : (jj ≤ j ∧ j < jj + (min dim (jj + 64) - jj)) ↔ (jj ≤ j ∧ j < jj + 64) := by
            omega
          rw [if_congr hcond rfl rfl]
          by_cases hxx : jj ≤ j ∧ j < jj + 64
          · by_cases hyy : i' = i
            · simp [hxx, hyy]
            · simp [hxx, hyy]
          · by_cases hyy : i' = i
            · simp [hxx, hyy]
            · simp [hxx, hyy]
        rw [List.map_congr_left hkstep]
        by_cases hyy : i' = i
        · by_cases hxx : jj ≤ j ∧ j < jj + 64
          · simp [hyy, hxx]
          · simp [hyy, hxx, sum_map_zero]
        · simp [hyy, sum_map_zero]
      rw [List.map_congr_left hii,
        Sums.sum_ite_range
          (fun _ => if jj ≤ j ∧ j < jj + 64 then
            ((List.range' kk (min dim (kk + 64) - kk) 1).map
              (fun k => A (dim * i + k) * B (dim * k + j))).sum
          else 0) dim i hi]
    rw [List.map_congr_left hjj,
      sum_blocks_select
        (((List.range' kk (min dim (kk + 64) - kk) 1).map
          (fun k => A (dim * i + k) * B (dim * k + j))).sum)
        dim 64 j (by norm_num) hj ((dim + 63) / 64) 0 (by omega) (Nat.zero_le j)]
  rw [List.map_congr_left hkk,
    sum_blocks_cover (fun k => A (dim * i + k) * B (dim * k + j)) dim 64 (by norm_num)
      ((dim + 63) / 64) 0 (by omega)]
  rw [Nat.sub_zero, ← List.range_eq_range']
  unfold mmSpec
  apply congrArg
  apply List.map_congr_left
  intro k _
  rw [Nat.mul_comm dim i, Nat.mul_comm dim k]

end MatMul

namespace MatMul

theorem blkRangeAux_spec (dim : ℕ) (hdim : 0 < dim) :
    ∀ b, 0 < b → blkRangeAux dim b ∣ dim ∧ 0 < blkRangeAux dim b := by
  intro b
  induction b with
  | zero => intro h; omega
  | succ b ih =>
    intro _
    by_cases hmod : dim % (b + 1) = 0
    · rw [show blkRangeAux dim (b + 1) = b + 1 from by simp [blkRangeAux, hmod]]
      exact ⟨Nat.dvd_of_mod_eq_zero hmod, Nat.succ_pos b⟩
    · rw [show blkRangeAux dim (b + 1) = blkRangeAux dim b from by simp [blkRangeAux, hmod]]
      apply ih
      rcases Nat.eq_zero_or_pos b with hb | hb
      · subst hb
        simp [Nat.mod_one] at hmod
      · exact hb

theorem blkRange_dvd (dim : ℕ) (hdim : 0 < dim) : blkRange dim ∣ dim :=
  (blkRangeAux_spec dim hdim 128 (by norm_num)).1

theorem blkRange_pos (dim : ℕ) (hdim : 0 < dim) : 0 < blkRange dim :=
  (blkRangeAux_spec dim hdim 128 (by norm_num)).2

theorem sumAt_cons (n : ℕ) (p : ℕ × ℚ) (L : List (ℕ × ℚ)) :
    sumAt n (p :: L) = (if p.1 = n then p.2 else 0) + sumAt n L := by
  unfold sumAt
  rw [List.filter_cons]
  by_cases hp : p.1 = n
  · simp [hp]
  · simp [hp]

/-- The count loop adds, at the single position `ores + row*dim + col`, the
sum of the products for `count ≤ c < bs` (the 4-way unrolling groups them in
fours but adds the same products). -/
theorem countUpdates_sumAt (A B : ℕ → ℚ) (bs dim o1 o2 ores row col n : ℕ) :
    ∀ count, sumAt n (countUpdates A B bs dim o1 o2 ores row col count)
      = if ores + row * dim + col = n then
          ((List.range' count (bs - count) 1).map
            (fun c => A (o1 + row * dim + c) * B (o2 + c * dim + col))).sum
        else 0 := by
  have main : ∀ fuel count, bs - count ≤ fuel →
      sumAt n (countUpdates A B bs dim o1 o2 ores row col count)
        = if ores + row * dim + col = n then
            ((List.range' count (bs - count) 1).map
              (fun c => A (o1 + row * dim + c) * B (o2 + c * dim + col))).sum
          else 0 := by
    intro fuel
    induction fuel with
    | zero =>
      intro count hf
      rw [countUpdates, dif_neg (by omega : ¬ count < bs)]
      rw [show bs - count = 0 from by omega]
      simp [sumAt]
    | succ fuel ih =>
      intro count hf
      rw [countUpdates]
      by_cases hc : count < bs
      · rw [dif_pos hc]
        by_cases h4 : count + 4 < bs
        · rw [dif_pos h4, sumAt_cons, ih (count + 4) (by omega)]
          by_cases hpos : ores + row * dim + col = n
          · rw [if_pos hpos, if_pos hpos, if_pos hpos]
            have hsplit : List.range' count (bs - count) 1
                = List.range' count 4 1 ++ List.range' (count + 4) (bs - (count + 4)) 1 := by
              have h1 : (bs - (count + 4)) + 4 = bs - count := by omega
              have h2 : count + 1 * 4 = count + 4 := by ring
              rw [← h1, ← List.range'_append count 4 (bs - (count + 4)) 1, h2]
            rw [hsplit, List.map_append, List.sum_append]
            have h4list : List.range' count 4 1 = [count, count + 1, count + 2, count + 3] := rfl
            rw [h4list]
            simp only [List.map_cons, List.map_nil, List.sum_cons, List.sum_nil]
            ring_nf
          · rw [if_neg hpos, if_neg hpos, if_neg hpos]
            norm_num
        · rw [dif_neg h4, sumAt_cons, ih (count + 1) (by omega)]
          by_cases hpos : ores + row * dim + col = n
          · rw [if_pos hpos, if_pos hpos, if_pos hpos]
            have h1 : bs - count = (bs - (count + 1)) + 1 := by omega
            rw [h1, List.range'_succ]
            simp only [List.map_cons, List.sum_cons]
          · rw [if_neg hpos, if_neg hpos, if_neg hpos]
            norm_num
      · rw [dif_neg hc]
        rw [show bs - count = 0 from by omega]
        simp [sumAt]
  intro count
  exact main (bs - count) count le_rfl

theorem sum_ite_shift {M : Type} [AddCommMonoid M] (f : ℕ → M) (t s : ℕ) :
    ∀ len, ((List.range len).map (fun x => if s + x = t then f x else 0)).sum
      = if s ≤ t ∧ t < s + len then f (t - s) else 0 := by
  intro len
  induction len with
  | zero => simp [show ¬(s ≤ t ∧ t < s) from by omega]
  | succ len ih =>
    rw [List.range_succ, List.map_append, List.sum_append]
    simp only [List.map_cons, List.map_nil, List.sum_cons, List.sum_nil, ih]
    by_cases h1 : s ≤ t ∧ t < s + len
    · rw [if_pos h1, if_neg (by omega : ¬ s + len = t),
        if_pos (by omega : s ≤ t ∧ t < s + (len + 1))]
      simp
    · by_cases h2 : s + len = t
      · rw [if_neg h1, if_pos h2, if_pos (by omega : s ≤ t ∧ t < s + (len + 1)),
          show t - s = len from by omega]
        simp
      · rw [if_neg h1, if_neg h2, if_neg (by omega : ¬(s ≤ t ∧ t < s + (len + 1)))]
        simp

end MatMul

namespace MatMul

/-- A subblock call at block offsets `I`, `J`, `Kb` contributes, to result
entry `(i,j)`, the block-local dot product over `Kb ≤ k < Kb + bs` when
`(i,j)` lies in the `(I,J)` block, and nothing otherwise. -/
theorem subblock_sumAt (A B : ℕ → ℚ) (bs dim I J Kb i j : ℕ)
    (hJbs : J + bs ≤ dim) (hi : i < dim) (hj : j < dim) :
    sumAt (i * dim + j)
        (subblockUpdates A B bs dim (I * dim + Kb) (Kb * dim + J) (I * dim + J))
      = if I ≤ i ∧ i < I + bs ∧ J ≤ j ∧ j < J + bs then
          ((List.range' 0 bs 1).map
            (fun c => A (i * dim + (Kb + c)) * B ((Kb + c) * dim + j))).sum
        else 0 := by
  unfold subblockUpdates
  rw [sumAt_flatMap]
  have hcol : ∀ col ∈ List.range bs,
      sumAt (i * dim + j)
        ((List.range bs).flatMap fun row =>
          countUpdates A B bs dim (I * dim + Kb) (Kb * dim + J) (I * dim + J) row col 0)
      = if J + col = j then
          (if I ≤ i ∧ i < I + bs then
            ((List.range' 0 bs 1).map (fun c =>
              A ((I * dim + Kb) + (i - I) * dim + c)
                * B ((Kb * dim + J) + c * dim + col))).sum
          else 0)
        else 0 := by
    intro col hcolmem
    rw [sumAt_flatMap]
    have hrow : ∀ row ∈ List.range bs,
        sumAt (i * dim + j)
          (countUpdates A B bs dim (I * dim + Kb) (Kb * dim + J) (I * dim + J) row col 0)
        = if I + row = i then
            (if J + col = j then
              ((List.range' 0 bs 1).map (fun c =>
                A ((I * dim + Kb) + row * dim + c)
                  * B ((Kb * dim + J) + c * dim + col))).sum
            else 0)
          else 0 := by
      intro row _
      rw [countUpdates_sumAt A B bs dim (I * dim + Kb) (Kb * dim + J) (I * dim + J)
        row col (i * dim + j) 0, Nat.sub_zero]
      have hpos : (I * dim + J) + row * dim + col = (I + row) * dim + (J + col) := by ring
      rw [hpos, if_congr (rowcol_inj dim (I + row) (J + col) i j
        (by have := List.mem_range.mp hcolmem; omega) hj) rfl rfl]
      by_cases h1 : I + row = i
      · by_cases h2 : J + col = j
        · rw [if_pos ⟨h1, h2⟩, if_pos h1, if_pos h2]
        · rw [if_neg (fun hand => h2 hand.2), if_pos h1, if_neg h2]
      · rw [if_neg (fun hand => h1 hand.1), if_neg h1]
    rw [List.map_congr_left hrow, sum_ite_shift (fun row =>
      (if J + col = j then
        ((List.range' 0 bs 1).map (fun c =>
          A ((I * dim + Kb) + row * dim + c)
            * B ((Kb * dim + J) + c * dim + col))).sum
      else 0)) i I bs]
    by_cases h2 : J + col = j
    · by_cases h1 : I ≤ i ∧ i < I + bs
      · rw [if_pos h1, if_pos h2, if_pos h2, if_pos h1]
      · rw [if_neg h1, if_pos h2, if_neg h1]
    · by_cases h1 : I ≤ i ∧ i < I + bs
      · rw [if_pos h1, if_neg h2, if_neg h2]
      · rw [if_neg h1, if_neg h2]
  rw [List.map_congr_left hcol, sum_ite_shift (fun col =>
    (if I ≤ i ∧ i < I + bs then
      ((List.range' 0 bs 1).map (fun c =>
        A ((I * dim + Kb) + (i - I) * dim + c)
          * B ((Kb * dim + J) + c * dim + col))).sum
    else 0)) j J bs]
  by_cases h1 : I ≤ i ∧ i < I + bs
  · by_cases h2 : J ≤ j ∧ j < J + bs
    · rw [if_pos h2, if_pos h1, if_pos ⟨h1.1, h1.2, h2.1, h2.2⟩]
      apply congrArg
      apply List.map_congr_left
      intro c _
      have e1 : (I * dim + Kb) + (i - I) * dim + c = i * dim + (Kb + c) := by
        have h3 : I * dim + (i - I) * dim = i * dim := by
          rw [← Nat.add_mul, Nat.add_sub_cancel' h1.1]
        linarith [h3]
      have e2 : (Kb * dim + J) + c * dim + (j - J) = (Kb + c) * dim + j := by
        have h3 : Kb * dim + c * dim = (Kb + c) * dim := by
          rw [← Nat.add_mul]
        have h4 : (j - J) + J = j := by omega
        linarith [h3, h4]
      rw [e1, e2]
    · rw [if_neg h2, if_neg (fun hand => h2 ⟨hand.2.2.1, hand.2.2.2⟩)]
  · by_cases h2 : J ≤ j ∧ j < J + bs
    · rw [if_pos h2, if_neg h1, if_neg (fun hand => h1 ⟨hand.1, hand.2.1⟩)]
    · rw [if_neg h2, if_neg (fun hand => h2 ⟨hand.2.2.1, hand.2.2.2⟩)]

end MatMul

namespace MatMul

theorem sum_range'_shift (g : ℕ → ℚ) : ∀ (len s t : ℕ),
    ((List.range' (s + t) len 1).map g).sum
      = ((List.range' s len 1).map (fun c => g (c + t))).sum := by
  intro len
  induction len with
  | zero => intro s t; rfl
  | succ len ih =>
    intro s t
    rw [List.range'_succ, List.range'_succ]
    simp only [List.map_cons, List.sum_cons]
    rw [show s + t + 1 = s + 1 + t from by ring, ih (s + 1) t]

theorem blocked_correct (A B res : ℕ → ℚ) (dim i j : ℕ) (hi : i < dim) (hj : j < dim) :
    applyUpdates (memset0 res dim) (blockedUpdates A B dim) (i * dim + j)
      = mmSpec A B dim i j := by
  have hdim : 0 < dim := by omega
  have hbs : 0 < blkRange dim := blkRange_pos dim hdim
  obtain ⟨m, hm⟩ := blkRange_dvd dim hdim
  have hcntgen : ∀ bs, 0 < bs → dim = bs * m → (dim + bs - 1) / bs = m := by
    intro bs hbs1 hm1
    rw [hm1, show bs * m + bs - 1 = bs * m + (bs - 1) from by omega,
      Nat.mul_add_div hbs1, Nat.div_eq_of_lt (by omega), Nat.add_zero]
  have hcnt : (dim + blkRange dim - 1) / blkRange dim = m := hcntgen (blkRange dim) hbs hm
  have hmbs : m * blkRange dim = dim := by
    rw [Nat.mul_comm]
    exact hm.symm
  have hblockbound : ∀ I ∈ List.range' 0 m (blkRange dim), I + blkRange dim ≤ dim := by
    intro I hI
    obtain ⟨t, ht, hteq⟩ := List.mem_range'.mp hI
    have heq : I + blkRange dim = blkRange dim * (t + 1) := by
      rw [hteq]
      ring
    rw [heq]
    calc blkRange dim * (t + 1) ≤ blkRange dim * m :=
          Nat.mul_le_mul_left _ (Nat.succ_le_of_lt ht)
      _ = dim := hm.symm
  have hcov : dim ≤ 0 + m * blkRange dim := by
    rw [Nat.zero_add, hmbs]
  rw [applyUpdates_apply,
    show memset0 res dim (i * dim + j) = 0 from by
      unfold memset0
      rw [if_pos (pos_lt_sq dim i j hi hj)],
    zero_add]
  unfold blockedUpdates
  rw [hcnt, sumAt_flatMap]
  have hJ : ∀ J ∈ List.range' 0 m (blkRange dim),
      sumAt (i * dim + j)
        ((List.range' 0 m (blkRange dim)).flatMap fun I =>
          (List.range' 0 m (blkRange dim)).flatMap fun K =>
            subblockUpdates A B (blkRange dim) dim (I * dim + K) (K * dim + J) (I * dim + J))
      = if J ≤ j ∧ j < J + blkRange dim then
          ((List.range' 0 m (blkRange dim)).map (fun Kb =>
            ((List.range' 0 (blkRange dim) 1).map
              (fun c => A (i * dim + (Kb + c)) * B ((Kb + c) * dim + j))).sum)).sum
        else 0 := by
    intro J hJmem
    rw [sumAt_flatMap]
    have hI : ∀ I ∈ List.range' 0 m (blkRange dim),
        sumAt (i * dim + j)
          ((List.range' 0 m (blkRange dim)).flatMap fun K =>
            subblockUpdates A B (blkRange dim) dim (I * dim + K) (K * dim + J) (I * dim + J))
        = if I ≤ i ∧ i < I + blkRange dim then
            (if J ≤ j ∧ j < J + blkRange dim then
              ((List.range' 0 m (blkRange dim)).map (fun Kb =>
                ((List.range' 0 (blkRange dim) 1).map
                  (fun c => A (i * dim + (Kb + c)) * B ((Kb + c) * dim + j))).sum)).sum
            else 0)
          else 0 := by
      intro I _
      rw [sumAt_flatMap]
      have hK : ∀ Kb ∈ List.range' 0 m (blkRange dim),
          sumAt (i * dim + j)
            (subblockUpdates A B (blkRange dim) dim
              (I * dim + Kb) (Kb * dim + J) (I * dim + J))
          = if I ≤ i ∧ i < I + blkRange dim ∧ J ≤ j ∧ j < J + blkRange dim then
              ((List.range' 0 (blkRange dim) 1).map
                (fun c => A (i * dim + (Kb + c)) * B ((Kb + c) * dim + j))).sum
            else 0 :=
        fun Kb _ => subblock_sumAt A B (blkRange dim) dim I J Kb i j
          (hblockbound J hJmem) hi hj
      rw [List.map_congr_left hK]
      by_cases hCC : I ≤ i ∧ i < I + blkRange dim ∧ J ≤ j ∧ j < J + blkRange dim
      · simp only [if_pos hCC,
          if_pos (show I ≤ i ∧ i < I + blkRange dim from ⟨hCC.1, hCC.2.1⟩),
          if_pos (show J ≤ j ∧ j < J + blkRange dim from ⟨hCC.2.2.1, hCC.2.2.2⟩)]
      · simp only [if_neg hCC]
        rw [sum_map_zero]
        by_cases h1 : I ≤ i ∧ i < I + blkRange dim
        · by_cases h2 : J ≤ j ∧ j < J + blkRange dim
          · exact absurd ⟨h1.1, h1.2, h2.1, h2.2⟩ hCC
          · rw [if_pos h1, if_neg h2]
        · rw [if_neg h1]
    rw [List.map_congr_left hI, sum_blocks_select
      (if J ≤ j ∧ j < J + blkRange dim then
        ((List.range' 0 m (blkRange dim)).map (fun Kb =>
          ((List.range' 0 (blkRange dim) 1).map
            (fun c => A (i * dim + (Kb + c)) * B ((Kb + c) * dim + j))).sum)).sum
      else 0)
      dim (blkRange dim) i hbs hi m 0 hcov (Nat.zero_le i)]
  rw [List.map_congr_left hJ, sum_blocks_select
    (((List.range' 0 m (blkRange dim)).map (fun Kb =>
      ((List.range' 0 (blkRange dim) 1).map
        (fun c => A (i * dim + (Kb + c)) * B ((Kb + c) * dim + j))).sum)).sum)
    dim (blkRange dim) j hbs hj m 0 hcov (Nat.zero_le j)]
  have hshift : ∀ Kb ∈ List.range' 0 m (blkRange dim),
      ((List.range' 0 (blkRange dim) 1).map
        (fun c => A (i * dim + (Kb + c)) * B ((Kb + c) * dim + j))).sum
      = ((List.range' Kb (min dim (Kb + blkRange dim) - Kb) 1).map
          (fun k => A (i * dim + k) * B (k * dim + j))).sum := by
    intro Kb hKmem
    have hKb : Kb + blkRange dim ≤ dim := hblockbound Kb hKmem
    have hlen : min dim (Kb + blkRange dim) - Kb = blkRange dim := by omega
    have hsr := sum_range'_shift (fun k => A (i * dim + k) * B (k * dim + j))
      (blkRange dim) 0 Kb
    rw [Nat.zero_add] at hsr
    rw [hlen, hsr]
    apply congrArg
    apply List.map_congr_left
    intro c _
    rw [Nat.add_comm Kb c]
  rw [List.map_congr_left hshift,
    sum_blocks_cover (fun k => A (i * dim + k) * B (k * dim + j)) dim (blkRange dim) hbs
      m 0 hcov, Nat.sub_zero, ← List.range_eq_range']
  rfl

end MatMul

namespace MatMul

/-- C9: over exact arithmetic both matrix-multiply implementations are pure
functions of `A`, `B`, `dim` (the result is independent of the prior contents
of the result buffer, quantified here as arbitrary `res1..res4`), every
produced entry equals `sum over k of A[i][k] * B[k][j]`, and the blocked
variants (the dim >= 256 path of matrix_mul.cpp and matrix_mul4.cc) compute
the same function as the naive triple loop. -/
theorem matrix_multiply_pure_and_equivalent (A B res1 res2 res3 res4 : ℕ → ℚ)
    (dim i j : ℕ) (hi : i < dim) (hj : j < dim) :
    applyUpdates (memset0 res1 dim) (naiveUpdates A B dim) (i * dim + j)
        = mmSpec A B dim i j ∧
      applyUpdates (memset0 res2 dim) (blockedUpdates A B dim) (i * dim + j)
        = mmSpec A B dim i j ∧
      matrix_multiplication A B res3 dim (i * dim + j) = mmSpec A B dim i j ∧
      matrix_multiplication4 A B res4 dim (dim * i + j) = mmSpec A B dim i j ∧
      matrix_multiplication A B res3 dim (i * dim + j)
        = matrix_multiplication4 A B res4 dim (dim * i + j) := by
  have h3 : matrix_multiplication A B res3 dim (i * dim + j) = mmSpec A B dim i j := by
    unfold matrix_multiplication
    by_cases hd : 256 ≤ dim
    · rw [if_pos hd]
      exact blocked_correct A B res3 dim i j hi hj
    · rw [if_neg hd]
      exact naive_correct A B res3 dim i j hi hj
  have h4 := mm4_correct A B res4 dim i j hi hj
  exact ⟨naive_correct A B res1 dim i j hi hj, blocked_correct A B res2 dim i j hi hj,
    h3, h4, h3.trans h4.symm⟩

/-- C9 witness: the theorem applied at dim = 1, entry (0,0), constant
matrices, and arbitrary distinct junk in the result buffers. -/
theorem matrix_multiply_witness :
    ((0 : ℕ) < 1 ∧ (0 : ℕ) < 1) ∧
      (applyUpdates (memset0 (fun _ => 5) 1)
            (naiveUpdates (fun _ => 2) (fun _ => 3) 1) (0 * 1 + 0)
          = mmSpec (fun _ => 2) (fun _ => 3) 1 0 0 ∧
        applyUpdates (memset0 (fun _ => 6) 1)
            (blockedUpdates (fun _ => 2) (fun _ => 3) 1) (0 * 1 + 0)
          = mmSpec (fun _ => 2) (fun _ => 3) 1 0 0 ∧
        matrix_multiplication (fun _ => 2) (fun _ => 3) (fun _ => 7) 1 (0 * 1 + 0)
          = mmSpec (fun _ => 2) (fun _ => 3) 1 0 0 ∧
        matrix_multiplication4 (fun _ => 2) (fun _ => 3) (fun _ => 8) 1 (1 * 0 + 0)
          = mmSpec (fun _ => 2) (fun _ => 3) 1 0 0 ∧
        matrix_multiplication (fun _ => 2) (fun _ => 3) (fun _ => 7) 1 (0 * 1 + 0)
          = matrix_multiplication4 (fun _ => 2) (fun _ => 3) (fun _ => 8) 1 (1 * 0 + 0)) :=
  ⟨⟨by decide, by decide⟩,
    matrix_multiply_pure_and_equivalent (fun _ => 2) (fun _ => 3)
      (fun _ => 5) (fun _ => 6) (fun _ => 7) (fun _ => 8) 1 0 0 (by decide) (by decide)⟩

end MatMul
